import Mathlib

/-!
Verification development for the GENIE-Generator comparison/plotting pipeline.

Shallow embedding of:
  * `src/src/NuValidator/DBUtils/MultiGraph.cxx` — the `MultiGraph`
    aggregator (`AddGraph`, `NGraphs`, `GetGraph`, `GetLegendEntry`,
    `FormatGraph`);
  * `src/src/Apps/gXSecComp.cxx` — the cross-section comparison utility
    (`TrimGraph`, `DrawRatio`, `Draw`, `DirNameToProbe`,
    `GetCommandLineArgs`, `CheckRootFilename`).

Floating point `double` values carrying physics data are embedded as `ℚ`;
the claims under study concern branch structure, orderings and counts, not
floating-point rounding.  C++ `int` loop counters and sizes are embedded as
`Nat` (they are non-negative throughout the modelled code).
-/

namespace GenieComp

/-! ## MultiGraph (src/src/NuValidator/DBUtils/MultiGraph.cxx)

A ROOT `TGraphAsymmErrors` object is relevant to the modelled code only
through its identity (which underlying graph it is) and the visual-style
attributes that `MultiGraph::FormatGraph` mutates in place.  We embed it as
a record of those attributes plus an identity tag `gid`. -/

structure TGraphAsymmErrors where
  gid         : Nat
  markerSize  : Int
  markerColor : Int
  markerStyle : Int
  lineColor   : Int
  lineWidth   : Int
  lineStyle   : Int
deriving DecidableEq, Repr

/-- The `MultiGraph` class state: the parallel vectors `_mgraph` and
`_legend_entries` (MultiGraph.cxx lines 36-37). -/
structure MultiGraph where
  mgraph         : List TGraphAsymmErrors
  legend_entries : List String
deriving DecidableEq

/-- In-place update of one element of a list, as `_mgraph[igraph] -> Set...`
acts on one vector slot. -/
def listModify : List α → Nat → (α → α) → List α
  | [], _, _ => []
  | a :: l, 0, f => f a :: l
  | a :: l, n + 1, f => a :: listModify l n f

namespace MultiGraph

/-- `const int n_colors = 10;` (MultiGraph.cxx line 80). -/
def n_colors : Nat := 10

/-- `const int colors[] = { 1, 2, 4, 6, 7, 8, 9, 50, 38, 40 };` (line 81). -/
def colors : List Int := [1, 2, 4, 6, 7, 8, 9, 50, 38, 40]

/-- `const int markers[] = { 3, 4, 5, 8, 21, 22, 23, 24, 25, 26, 27, 28, 29, 30 };`
(line 82). -/
def markers : List Int := [3, 4, 5, 8, 21, 22, 23, 24, 25, 26, 27, 28, 29, 30]

/-- The attribute writes of `MultiGraph::FormatGraph` (lines 84-95) applied
to one graph object: `imarker = igraph / n_colors`, `icolor = igraph %
n_colors`, marker size 1, line width 2, line style 1 (solid), marker/line
color `colors[icolor]`, marker shape `markers[imarker]`.  The C++ array
reads are in-bounds only for `igraph < 140`; out of bounds we default to 0
(the C++ is undefined there). -/
def applyFormat (igraph : Nat) (g : TGraphAsymmErrors) : TGraphAsymmErrors :=
  let imarker := igraph / n_colors
  let icolor  := igraph % n_colors
  { g with
    markerSize  := 1
    markerColor := colors.getD icolor 0
    markerStyle := markers.getD imarker 0
    lineColor   := colors.getD icolor 0
    lineWidth   := 2
    lineStyle   := 1 }

/-- `MultiGraph::FormatGraph(unsigned int igraph)` (lines 78-96): restyles
the stored graph at index `igraph`. -/
def FormatGraph (st : MultiGraph) (igraph : Nat) : MultiGraph :=
  { st with mgraph := listModify st.mgraph igraph (applyFormat igraph) }

/-- `MultiGraph::AddGraph` (lines 34-40): push the graph and the legend
entry, then `FormatGraph(_mgraph.size() - 1)`. -/
def AddGraph (st : MultiGraph) (legend_entry : String)
    (graph : TGraphAsymmErrors) : MultiGraph :=
  FormatGraph
    { st with
      mgraph := st.mgraph ++ [graph]
      legend_entries := st.legend_entries ++ [legend_entry] }
    ((st.mgraph ++ [graph]).length - 1)

/-- `MultiGraph::NGraphs` (lines 42-45). -/
def NGraphs (st : MultiGraph) : Nat := st.mgraph.length

/-- `MultiGraph::GetGraph` (lines 47-52): bounds-checked access, null (here
`none`) when out of range. -/
def GetGraph (st : MultiGraph) (igraph : Nat) : Option TGraphAsymmErrors :=
  if igraph < st.NGraphs then st.mgraph[igraph]? else none

/-- `MultiGraph::GetLegendEntry` (lines 54-59): bounds-checked access, the
empty string when out of range.  (The C++ guard is `igraph < NGraphs()`,
i.e. against `_mgraph.size()`; in every state the class builds, the two
vectors have equal length, so the in-range read of `_legend_entries` is
well defined and `getD`'s default is never taken in range.) -/
def GetLegendEntry (st : MultiGraph) (igraph : Nat) : String :=
  if igraph < st.NGraphs then st.legend_entries.getD igraph "" else ""

/-- The `MultiGraph()` constructor (lines 24-27): both vectors empty. -/
def emptyMG : MultiGraph := { mgraph := [], legend_entries := [] }

/-- A sequence of `AddGraph` calls applied in order to a starting state. -/
def addAll (entries : List (String × TGraphAsymmErrors)) (st : MultiGraph) :
    MultiGraph :=
  entries.foldl (fun s e => AddGraph s e.1 e.2) st

/-! ### Helper lemmas -/

theorem listModify_append_last (l : List α) (a : α) (f : α → α) :
    listModify (l ++ [a]) l.length f = l ++ [f a] := by
  induction l with
  | nil => rfl
  | cons x xs ih => simp [listModify, ih]

theorem AddGraph_mgraph (st : MultiGraph) (lbl : String)
    (g : TGraphAsymmErrors) :
    (st.AddGraph lbl g).mgraph
      = st.mgraph ++ [applyFormat st.mgraph.length g] := by
  simp [AddGraph, FormatGraph]
  exact listModify_append_last st.mgraph g (applyFormat st.mgraph.length)

theorem AddGraph_legend (st : MultiGraph) (lbl : String)
    (g : TGraphAsymmErrors) :
    (st.AddGraph lbl g).legend_entries = st.legend_entries ++ [lbl] := rfl

theorem addAll_mgraph_length (entries : List (String × TGraphAsymmErrors)) :
    ∀ st : MultiGraph,
      (addAll entries st).mgraph.length
        = st.mgraph.length + entries.length := by
  induction entries with
  | nil => intro st; simp [addAll]
  | cons e es ih =>
      intro st
      show (addAll es (st.AddGraph e.1 e.2)).mgraph.length = _
      rw [ih (st.AddGraph e.1 e.2), AddGraph_mgraph]
      simp; omega

theorem addAll_getElem_preserved (entries : List (String × TGraphAsymmErrors)) :
    ∀ (st : MultiGraph) (j : Nat), j < st.mgraph.length →
      (addAll entries st).mgraph[j]? = st.mgraph[j]? := by
  induction entries with
  | nil => intro st j _; rfl
  | cons e es ih =>
      intro st j hj
      show (addAll es (st.AddGraph e.1 e.2)).mgraph[j]? = _
      rw [ih (st.AddGraph e.1 e.2) j (by rw [AddGraph_mgraph]; simp; omega),
          AddGraph_mgraph]
      exact List.getElem?_append_left hj

theorem addAll_getElem_new (entries : List (String × TGraphAsymmErrors)) :
    ∀ (st : MultiGraph) (i : Nat) (h : i < entries.length),
      (addAll entries st).mgraph[st.mgraph.length + i]?
        = some (applyFormat (st.mgraph.length + i) (entries.get ⟨i, h⟩).2) := by
  induction entries with
  | nil => intro st i h; exact absurd h (by simp)
  | cons e es ih =>
      intro st i h
      show (addAll es (st.AddGraph e.1 e.2)).mgraph[st.mgraph.length + i]? = _
      cases i with
      | zero =>
          rw [addAll_getElem_preserved es (st.AddGraph e.1 e.2)
                (st.mgraph.length + 0) (by rw [AddGraph_mgraph]; simp),
              AddGraph_mgraph]
          simp
      | succ i' =>
          have h' : i' < es.length := by simpa using h
          have := ih (st.AddGraph e.1 e.2) i' h'
          rw [AddGraph_mgraph] at this
          simp only [List.length_append, List.length_cons, List.length_nil] at this
          rw [show st.mgraph.length + (i' + 1) = st.mgraph.length + 1 + i' from by omega]
          rw [this]
          simp

end MultiGraph

/-! ## gXSecComp (src/src/Apps/gXSecComp.cxx) -/

/-- A ROOT `TGraph` as used by `gXSecComp`: the stored sample points
(`GetN`/`GetX`/`GetY`, embedded as a list of (x, y) pairs) together with
the interpolating evaluation `TGraph::Eval`.  `Eval` is ROOT library code
external to this repository; the modelled functions only call it, so it is
carried as an opaque-to-the-model function field. -/
structure TGraph where
  pts  : List (ℚ × ℚ)
  Eval : ℚ → ℚ

/-- `DrawRatio(TGraph * gr0, TGraph * gr1)` (gXSecComp.cxx lines 698-738),
computing "gr0 / gr1".  Null inputs (lines 702-703) return null.  Otherwise,
for each sample x of `gr0` (lines 712-730):
`if (gr0->Eval(x) != 0 && gr1->Eval(x) != 0) y = gr0->Eval(x)/gr1->Eval(x);
else if (gr0->Eval(x) != 0) y = -1; else y = 1;`
The result is the point list of the constructed ratio `TGraph`. -/
def DrawRatio (gr0 gr1 : Option TGraph) : Option (List (ℚ × ℚ)) :=
  match gr0 with
  | none => none
  | some g0 =>
    match gr1 with
    | none => none
    | some g1 =>
      some (g0.pts.map (fun p =>
        let x := p.1
        if g0.Eval x ≠ 0 ∧ g1.Eval x ≠ 0 then (x, g0.Eval x / g1.Eval x)
        else if g0.Eval x ≠ 0 then (x, -1) else (x, 1)))

/-- The claim/spec-side formula for the ratio y-value (spec §4.3 and §8
"Ratio sentinel values"): `num/den` when both are non-zero, `-1` when the
numerator evaluates to zero and the denominator does not, `+1` otherwise
(numerator non-zero with vanishing denominator, and also the both-zero
case).  Stated for comparison with the code's `DrawRatio`. -/
def ratioSpecY (num den : ℚ) : ℚ :=
  if num ≠ 0 ∧ den ≠ 0 then num / den
  else if num = 0 ∧ den ≠ 0 then -1
  else 1

/-- The ratio y-value the code actually computes, stated as a formula:
`+1` whenever the numerator evaluates to zero (including both-zero), `-1`
when the numerator is non-zero and the denominator evaluates to zero. -/
def ratioCodeY (num den : ℚ) : ℚ :=
  if num = 0 then 1
  else if den = 0 then -1
  else num / den

/-- The page-emission decision of `Draw(const char* plot, const char* title)`
(gXSecComp.cxx lines 580-634): after fetching `gr_curr` from the current
directory and `gr_ref0` from the reference directory (null when the
reference source is absent or lacks the plot), the function returns early —
before `gPS->NewPage()` — exactly when `gr_curr == 0 && gr_ref0 == 0`
(line 595). Returns `true` iff a new page is emitted. -/
def DrawStep (gr_curr gr_ref0 : Option TGraph) : Bool :=
  match gr_curr, gr_ref0 with
  | none, none => false
  | _, _ => true

/-! ### TrimGraph (gXSecComp.cxx lines 636-696)

The `while(1)` loop walks the point array in blocks: each block starts at
index `fp`, sets `xmin = x[fp]`, `xmax = 10*xmin`, and scans forward
(lines 650-656) counting `ndec` = number of points with `xmin < x <= xmax`,
stopping at `lp` = the first index whose x exceeds `xmax` (that overflow
point is part of the block) or the last index.  If `ndec` exceeds the
maximum, every point of the block whose offset from `fp` is not a multiple
of `keep_rate = floor(ndec/max)` is marked for removal (lines 657-667); the
block's first point (offset 0) is always kept.  The next block starts at
`lp + 1`.

The embedding gives each loop an explicit fuel argument; `fuel = np` bounds
the number of iterations of the corresponding C++ loop (indices strictly
increase and stay below `np`), so the fuel never runs out on the calls the
model makes.  `keep_rate` is the exact floor of `ndec/max` (the C++ computes
it through double division; the claims below do not depend on the rounding
of that intermediate). -/

/-- One `ndec` update of the inner scan loop:
`if (x > xmin && x <= xmax) ndec++;` (line 654). -/
def scanStep (xmin xmax x : ℚ) (ndec : Nat) : Nat :=
  if xmin < x ∧ x ≤ xmax then ndec + 1 else ndec

/-- The inner scan loop (lines 650-656): from index `i`, returns
`(lp, ndec)` — `lp` is the first index at or after `i` whose x exceeds
`xmax`, or the last index; `ndec` accumulates `scanStep` over the scanned
points. -/
def scanDecade : Nat → List ℚ → ℚ → ℚ → Nat → Nat → Nat × Nat
  | 0, _, _, _, i, ndec => (i, ndec)
  | fuel + 1, xs, xmin, xmax, i, ndec =>
    if h : i < xs.length then
      if xmax < xs.get ⟨i, h⟩ then
        (i, scanStep xmin xmax (xs.get ⟨i, h⟩) ndec)
      else if xs.length ≤ i + 1 then
        (i, scanStep xmin xmax (xs.get ⟨i, h⟩) ndec)
      else
        scanDecade fuel xs xmin xmax (i + 1)
          (scanStep xmin xmax (xs.get ⟨i, h⟩) ndec)
    else (i, ndec)

/-- One block scan of the `TrimGraph` loop starting at `fp`:
`xmin = x[fp]`, `xmax = 10 * xmin` (lines 647-648), then the inner scan. -/
def scanBlock (xs : List ℚ) (fp : Nat) (h : fp < xs.length) : Nat × Nat :=
  scanDecade xs.length xs (xs.get ⟨fp, h⟩) (10 * xs.get ⟨fp, h⟩) fp 0

/-- The removal flags of one block of length `len` (offsets `ithrow = 0 ..
len-1` from `fp`): when `ndec` exceeds the maximum `K`, offset `ithrow` is
removed iff `ithrow % keep_rate != 0` with `keep_rate = floor(ndec/K)`
(lines 657-667); otherwise nothing in the block is removed. -/
def blockFlags (K len ndec : Nat) : List Bool :=
  if K < ndec then
    (List.range len).map (fun ithrow => decide (ithrow % (ndec / K) ≠ 0))
  else List.replicate len false

/-- The removal flags `remv[fp..np-1]` produced by the `while(1)` loop of
`TrimGraph` (lines 646-670) for the tail of the curve starting at block
start `fp`: the current block covers indices `fp..lp` and the loop ends
when `lp == np-1`, else continues at `fp = lp+1`. -/
def trimRemv : Nat → List ℚ → Nat → Nat → List Bool
  | 0, _, _, _ => []
  | fuel + 1, xs, max_np_per_decade, fp =>
    if h : fp < xs.length then
      if xs.length ≤ (scanBlock xs fp h).1 + 1 then
        blockFlags max_np_per_decade ((scanBlock xs fp h).1 - fp + 1)
          (scanBlock xs fp h).2
      else
        blockFlags max_np_per_decade ((scanBlock xs fp h).1 - fp + 1)
            (scanBlock xs fp h).2
          ++ trimRemv fuel xs max_np_per_decade ((scanBlock xs fp h).1 + 1)
    else []

/-- The block start indices `fp` of the `TrimGraph` loop. -/
def blockStartsAux : Nat → List ℚ → Nat → List Nat
  | 0, _, _ => []
  | fuel + 1, xs, fp =>
    if h : fp < xs.length then
      if xs.length ≤ (scanBlock xs fp h).1 + 1 then [fp]
      else fp :: blockStartsAux fuel xs ((scanBlock xs fp h).1 + 1)
    else []

/-- The per-block point counts `ndec` of the `TrimGraph` loop. -/
def blockCountsAux : Nat → List ℚ → Nat → List Nat
  | 0, _, _ => []
  | fuel + 1, xs, fp =>
    if h : fp < xs.length then
      if xs.length ≤ (scanBlock xs fp h).1 + 1 then [(scanBlock xs fp h).2]
      else (scanBlock xs fp h).2 :: blockCountsAux fuel xs ((scanBlock xs fp h).1 + 1)
    else []

/-- The final copy loop of `TrimGraph` (lines 672-690): keep the points
whose removal flag is unset, in order. -/
def keepByMarks : List (ℚ × ℚ) → List Bool → List (ℚ × ℚ)
  | [], _ => []
  | _ :: _, [] => []
  | p :: ps, b :: bs =>
    if b then keepByMarks ps bs else p :: keepByMarks ps bs

/-- `TrimGraph(TGraph * gr, int max_np_per_decade)` (lines 636-696) at the
level of the point array: the new graph's points are the input points with
the `remv`-flagged ones dropped.  (The null-graph guard of line 638 lives
at the call sites; the empty array is never passed by the modelled caller —
on it the C++ loop would read out of bounds.) -/
def TrimGraph (pts : List (ℚ × ℚ)) (max_np_per_decade : Nat) : List (ℚ × ℚ) :=
  keepByMarks pts (trimRemv pts.length (pts.map Prod.fst) max_np_per_decade 0)

/-- Block start indices of the trimming loop on a curve. -/
def trimBlockStarts (pts : List (ℚ × ℚ)) : List Nat :=
  blockStartsAux pts.length (pts.map Prod.fst) 0

/-- Per-block `ndec` counts of the trimming loop on a curve. -/
def trimBlockCounts (pts : List (ℚ × ℚ)) : List Nat :=
  blockCountsAux pts.length (pts.map Prod.fst) 0

/-! ### DirNameToProbe (gXSecComp.cxx lines 232-282) -/

/-- Does the character-list pattern `p` occur at the head of `s`? -/
def matchesHere : List Char → List Char → Bool
  | _, [] => true
  | [], _ :: _ => false
  | a :: s, b :: p => a = b && matchesHere s p

/-- Does the pattern `p` occur contiguously anywhere in `s`?  Embeds
`std::string::find(pat) != std::string::npos`. -/
def listFindSub : List Char → List Char → Bool
  | [], p => matchesHere [] p
  | a :: s, p => matchesHere (a :: s) p || listFindSub s p

/-- `dirname.find(pat) != string::npos` on Lean strings. -/
def strFind (s pat : String) : Bool := listFindSub s.toList pat.toList

/-- PDG codes from `Framework/ParticleData/PDGCodes.h` (framework header,
not under src/): the standard PDG particle numbering. -/
def kPdgNuE : Int := 12
def kPdgAntiNuE : Int := -12
def kPdgNuMu : Int := 14
def kPdgAntiNuMu : Int := -14
def kPdgNuTau : Int := 16
def kPdgAntiNuTau : Int := -16

/-- `DirNameToProbe` (lines 232-282): resolve the probe from the directory
name by substring search, checking in this order: `nu_e_bar`, `nu_e`,
`nu_mu_bar`, `nu_mu`, `nu_tau_bar`, `nu_tau`; no match leaves
`(pdg, label) = (0, "")`.  Returns the `(pdg, label)` pair the function
stores in `gCurrProbePdg`/`gCurrProbeLbl`.  (Label strings contain ROOT
TLatex braces, written here with \x7b/\x7d escapes.) -/
def DirNameToProbe (dirname : String) : Int × String :=
  if strFind dirname "nu_e_bar" then (kPdgAntiNuE, "#bar\x7b#nu_\x7be\x7d\x7d")
  else if strFind dirname "nu_e" then (kPdgNuE, "#nu_\x7be\x7d")
  else if strFind dirname "nu_mu_bar" then (kPdgAntiNuMu, "#bar\x7b#nu_\x7b#mu\x7d\x7d")
  else if strFind dirname "nu_mu" then (kPdgNuMu, "#nu_\x7b#mu\x7d")
  else if strFind dirname "nu_tau_bar" then (kPdgAntiNuTau, "#bar\x7b#nu_\x7b#tau\x7d\x7d")
  else if strFind dirname "nu_tau" then (kPdgNuTau, "#nu_\x7b#tau\x7d")
  else (0, "")

/-! ### GetCommandLineArgs (gXSecComp.cxx lines 740-798) -/

/-- Outcome of `GetCommandLineArgs`: either the parsed option globals, or
`exitOne` — the `PrintSyntax(); exit(1);` paths (lines 760-761, 764-765,
781-783) — or `assertFail` — failure of `assert(inpv.size()==2)`
(lines 751, 773), which aborts the process (nonzero exit, but not via
`exit(1)`). -/
inductive CLResult where
  | args (xsecFilenameCurr labelCurr : String) (haveRef : Bool)
         (xsecFilenameRef0 labelRef0 : String) (outputFilename : String)
  | exitOne
  | assertFail
deriving DecidableEq

/-- Modelled from the spec: `utils::str::Split` of
`Framework/Utils/StringUtils` is not under src/.  Per the spec's CLI
contract ("optional comma-appended display label", "exactly one
comma-separated split expected"), it divides the string at each comma. -/
def splitCommaList : List Char → List (List Char)
  | [] => [[]]
  | c :: rest =>
    let r := splitCommaList rest
    if c = ',' then [] :: r
    else
      match r with
      | [] => [[c]]
      | h :: t => (c :: h) :: t

/-- `utils::str::Split(inp, ",")` on Lean strings (see `splitCommaList`). -/
def Split (s : String) : List String := (splitCommaList s.toList).map String.mk

/-- The shared `label,path` handling of the `-f`/`-r` branches
(lines 748-757, 770-779): when the argument contains a comma it is split,
`assert(inpv.size()==2)` must hold (else `none`, the aborting assert), and
the two parts are the filename and the label; otherwise the whole argument
is the filename and the label is the supplied default. -/
def splitFileLabel (inp dflt : String) : Option (String × String) :=
  if inp.toList.contains ',' then
    let inpv := Split inp
    if inpv.length = 2 then some (inpv.getD 0 "", inpv.getD 1 "") else none
  else some (inp, dflt)

/-- `CheckRootFilename` (lines 807-818): empty names are rejected, then the
name must be accessible.  Filesystem accessibility
(`gSystem->AccessPathName`) is external; it is passed in as `access`. -/
def CheckRootFilename (access : String → Bool) (filename : String) : Bool :=
  if filename.length = 0 then false
  else access filename

/-- `GetCommandLineArgs` (lines 740-798).  The external `CmdLnArgParser` is
represented by the values of the `-f`, `-r`, `-o` options (`none` when the
option is absent).  Mirrors the source's control flow: missing `-f` →
`exit(1)`; comma-argument split with `assert(inpv.size()==2)`; failed
`CheckRootFilename` → `exit(1)`; default labels "current"/"reference";
default output "xsec.ps". -/
def GetCommandLineArgs (access : String → Bool)
    (optF optR optO : Option String) : CLResult :=
  match optF with
  | none => CLResult.exitOne
  | some inp =>
    match splitFileLabel inp "current" with
    | none => CLResult.assertFail
    | some (fname, flbl) =>
      if CheckRootFilename access fname then
        match optR with
        | none =>
          CLResult.args fname flbl false "" ""
            (match optO with | some o => o | none => "xsec.ps")
        | some rinp =>
          match splitFileLabel rinp "reference" with
          | none => CLResult.assertFail
          | some (rname, rlbl) =>
            if CheckRootFilename access rname then
              CLResult.args fname flbl true rname rlbl
                (match optO with | some o => o | none => "xsec.ps")
            else CLResult.exitOne
      else CLResult.exitOne

/-! ### Helper lemmas about the trimming loop -/

theorem scanDecade_bounds (fuel : Nat) (xs : List ℚ) (xmin xmax : ℚ) :
    ∀ i ndec, i ≤ (scanDecade fuel xs xmin xmax i ndec).1
      ∧ (i < xs.length → (scanDecade fuel xs xmin xmax i ndec).1 < xs.length) := by
  induction fuel with
  | zero => intro i ndec; exact ⟨Nat.le_refl i, fun h => h⟩
  | succ fuel ih =>
      intro i ndec
      rw [scanDecade]
      by_cases h : i < xs.length
      · rw [dif_pos h]
        by_cases h1 : xmax < xs.get ⟨i, h⟩
        · rw [if_pos h1]; exact ⟨Nat.le_refl i, fun _ => h⟩
        · rw [if_neg h1]
          by_cases h2 : xs.length ≤ i + 1
          · rw [if_pos h2]; exact ⟨Nat.le_refl i, fun _ => h⟩
          · rw [if_neg h2]
            have := ih (i + 1) (scanStep xmin xmax (xs.get ⟨i, h⟩) ndec)
            exact ⟨Nat.le_trans (Nat.le_succ i) this.1, fun _ => this.2 (by omega)⟩
      · rw [dif_neg h]
        exact ⟨Nat.le_refl i, fun hc => absurd hc h⟩

theorem scanBlock_bounds (xs : List ℚ) (fp : Nat) (h : fp < xs.length) :
    fp ≤ (scanBlock xs fp h).1 ∧ (scanBlock xs fp h).1 < xs.length := by
  have := scanDecade_bounds xs.length xs (xs.get ⟨fp, h⟩)
    (10 * xs.get ⟨fp, h⟩) fp 0
  exact ⟨this.1, this.2 h⟩

theorem blockFlags_length (K len ndec : Nat) :
    (blockFlags K len ndec).length = len := by
  unfold blockFlags; split <;> simp

theorem blockFlags_getElem_zero (K len ndec : Nat) (h : 0 < len) :
    (blockFlags K len ndec)[0]? = some false := by
  unfold blockFlags
  split
  · rw [List.getElem?_map, List.getElem?_range (by omega)]
    simp
  · rw [List.getElem?_replicate, if_pos h]

/-- A block whose count stays below twice the maximum removes nothing:
either `ndec <= K` (no decimation branch), or `K < ndec < 2K` gives
`keep_rate = floor(ndec/K) = 1` and every offset satisfies
`ithrow % 1 = 0`. -/
theorem blockFlags_replicate_of_lt (K len ndec : Nat) (h : ndec < 2 * K) :
    blockFlags K len ndec = List.replicate len false := by
  rw [blockFlags]
  by_cases h1 : K < ndec
  · rw [if_pos h1]
    have hK : 0 < K := by omega
    have hdiv : ndec / K = 1 := by
      have h2 : 1 ≤ ndec / K := (Nat.one_le_div_iff hK).mpr (Nat.le_of_lt h1)
      have h3 : ndec / K < 2 := (Nat.div_lt_iff_lt_mul hK).mpr (by omega)
      omega
    rw [hdiv]
    have hmem : ∀ b ∈ (List.range len).map
        (fun ithrow => decide (ithrow % 1 ≠ 0)), b = false := by
      intro b hb
      rcases List.mem_map.mp hb with ⟨i, _, rfl⟩
      simp [Nat.mod_one]
    have hl := List.eq_replicate_of_mem hmem
    rwa [List.length_map, List.length_range] at hl
  · rw [if_neg h1]

theorem keepByMarks_replicate_false (pts : List (ℚ × ℚ)) :
    keepByMarks pts (List.replicate pts.length false) = pts := by
  induction pts with
  | nil => rfl
  | cons p ps ih => simp [keepByMarks, List.replicate, ih]

theorem trimRemv_replicate_of_lt (fuel : Nat) (xs : List ℚ) (K : Nat) :
    ∀ fp, fp < xs.length → xs.length - fp ≤ fuel →
      (∀ c ∈ blockCountsAux fuel xs fp, c < 2 * K) →
      trimRemv fuel xs K fp = List.replicate (xs.length - fp) false := by
  induction fuel with
  | zero => intro fp h hf _; omega
  | succ fuel ih =>
      intro fp h hf hK
      have hs := scanBlock_bounds xs fp h
      rw [trimRemv] at *
      rw [blockCountsAux] at hK
      rw [dif_pos h] at hK ⊢
      by_cases hlast : xs.length ≤ (scanBlock xs fp h).1 + 1
      · have hc : (scanBlock xs fp h).2 < 2 * K := by
          apply hK; rw [if_pos hlast]; exact List.mem_singleton.mpr rfl
        rw [if_pos hlast, blockFlags_replicate_of_lt _ _ _ hc]
        congr 1
        omega
      · have hc : (scanBlock xs fp h).2 < 2 * K := by
          apply hK; rw [if_neg hlast]; exact List.mem_cons_self _ _
        rw [if_neg hlast, blockFlags_replicate_of_lt _ _ _ hc,
          ih ((scanBlock xs fp h).1 + 1) (by omega) (by omega)
            (fun c hc2 => hK c (by rw [if_neg hlast]; exact List.mem_cons_of_mem _ hc2)),
          ← List.replicate_add]
        congr 1
        omega

/-! ### Counting lemmas for the decade-density bound

"Each factor-of-10 decade holds at most K points" bounds each block's
`ndec` below `2K`: the block's window `(x_fp, 10*x_fp]` spans at most the
decade of `x_fp` and the next one, and `x_fp` itself — a member of its own
decade — is never counted (the scan condition is strict at `xmin`). -/

theorem countP_le_add_of_imp (l : List α) (p q r : α → Bool)
    (h : ∀ a ∈ l, p a = true → q a = true ∨ r a = true) :
    l.countP p ≤ l.countP q + l.countP r := by
  induction l with
  | nil => simp
  | cons a t ih =>
      have ht := ih (fun b hb hpb => h b (List.mem_cons_of_mem a hb) hpb)
      simp only [List.countP_cons]
      by_cases hp : p a = true
      · rw [if_pos hp]
        rcases h a (List.mem_cons_self a t) hp with hq | hr
        · rw [if_pos hq]; omega
        · rw [if_pos hr]; omega
      · rw [if_neg hp]; omega

theorem countP_lt_of_mem (l : List α) (p q : α → Bool)
    (hqp : ∀ a ∈ l, q a = true → p a = true) (a : α) (ha : a ∈ l)
    (hpa : p a = true) (hqa : q a = false) :
    l.countP q < l.countP p := by
  induction l with
  | nil => simp at ha
  | cons b t ih =>
      simp only [List.countP_cons]
      rcases List.mem_cons.mp ha with rfl | hat
      · have hmono : t.countP q ≤ t.countP p :=
          List.countP_mono_left (fun x hx => hqp x (List.mem_cons_of_mem a hx))
        rw [if_pos hpa, if_neg (by simp [hqa])]
        omega
      · have hlt := ih (fun x hx hqx => hqp x (List.mem_cons_of_mem b hx) hqx) hat
        have hcase : (if q b then 1 else 0) ≤ (if p b then 1 else 0) := by
          by_cases hqb : q b = true
          · rw [if_pos hqb, if_pos (hqp b (List.mem_cons_self b t) hqb)]
          · rw [if_neg hqb]; exact Nat.zero_le _
        omega

theorem drop_eq_get_cons (xs : List ℚ) :
    ∀ (i : Nat) (h : i < xs.length),
      xs.drop i = xs.get ⟨i, h⟩ :: xs.drop (i + 1) := by
  induction xs with
  | nil => intro i h; simp at h
  | cons a t ih =>
      intro i h
      cases i with
      | zero => rfl
      | succ i =>
          have := ih i (by simpa using h)
          simpa [List.drop_succ_cons] using this

/-- The scan's `ndec` is bounded by the number of points of the whole tail
that lie in the window `(xmin, xmax]`. -/
theorem scanDecade_count_le (fuel : Nat) (xs : List ℚ) (xmin xmax : ℚ) :
    ∀ i ndec, (scanDecade fuel xs xmin xmax i ndec).2
      ≤ ndec + (xs.drop i).countP (fun x => decide (xmin < x ∧ x ≤ xmax)) := by
  induction fuel with
  | zero => intro i ndec; rw [scanDecade]; exact Nat.le_add_right _ _
  | succ fuel ih =>
      intro i ndec
      rw [scanDecade]
      by_cases h : i < xs.length
      · rw [dif_pos h]
        have hcount : (xs.drop i).countP (fun x => decide (xmin < x ∧ x ≤ xmax))
            = (if decide (xmin < xs.get ⟨i, h⟩ ∧ xs.get ⟨i, h⟩ ≤ xmax) = true
                then 1 else 0)
              + (xs.drop (i + 1)).countP (fun x => decide (xmin < x ∧ x ≤ xmax)) := by
          rw [drop_eq_get_cons xs i h, List.countP_cons]
          simp only [decide_eq_true_eq]
          split <;> omega
        have hstep : scanStep xmin xmax (xs.get ⟨i, h⟩) ndec
            ≤ ndec + (if decide (xmin < xs.get ⟨i, h⟩ ∧ xs.get ⟨i, h⟩ ≤ xmax) = true
                then 1 else 0) := by
          rw [scanStep]
          by_cases hc : xmin < xs.get ⟨i, h⟩ ∧ xs.get ⟨i, h⟩ ≤ xmax
          · rw [if_pos hc, if_pos (decide_eq_true hc)]
          · rw [if_neg hc, if_neg (by rw [decide_eq_true_eq]; exact hc)]
            omega
        by_cases h1 : xmax < xs.get ⟨i, h⟩
        · rw [if_pos h1]
          exact le_trans hstep (by rw [hcount]; omega)
        · rw [if_neg h1]
          by_cases h2 : xs.length ≤ i + 1
          · rw [if_pos h2]
            exact le_trans hstep (by rw [hcount]; omega)
          · rw [if_neg h2]
            have := ih (i + 1) (scanStep xmin xmax (xs.get ⟨i, h⟩) ndec)
            rw [hcount]
            omega
      · rw [dif_neg h]
        exact Nat.le_add_right _ _

/-- If every factor-of-10 decade `[x0*10^j, x0*10^(j+1))` of the tiling
that starts at the curve's first x-value holds at most `K` points, then
every scan block counts `ndec < 2K`: the window `(x_fp, 10*x_fp]` reaches
at most into the decade of `x_fp` and the following one, and `x_fp` — a
point of its own decade — is not counted. -/
theorem scanBlock_count_lt (xs : List ℚ) (K : Nat) (fp : Nat) (h : fp < xs.length)
    (hx0 : 0 < xs.getD 0 0) (hsorted : xs.Sorted (· ≤ ·))
    (hdec : ∀ j : ℕ, xs.countP (fun x =>
        decide (xs.getD 0 0 * 10 ^ j ≤ x ∧ x < xs.getD 0 0 * 10 ^ (j + 1))) ≤ K) :
    (scanBlock xs fp h).2 < 2 * K := by
  rw [scanBlock]
  have hlen0 : 0 < xs.length := Nat.lt_of_le_of_lt (Nat.zero_le fp) h
  have hx0get : xs.getD 0 0 = xs.get ⟨0, hlen0⟩ := by
    cases xs with
    | nil => simp at hlen0
    | cons a t => rfl
  set xfp := xs.get ⟨fp, h⟩ with hxfpdef
  set x0 := xs.getD 0 0 with hx0def
  have hfp0 : x0 ≤ xfp := by
    rw [hx0get, hxfpdef]
    rcases Nat.eq_zero_or_pos fp with rfl | hfppos
    · exact le_refl _
    · exact List.Sorted.rel_get_of_lt hsorted hfppos
  -- locate the decade of x_fp: the j with x0*10^j <= xfp < x0*10^(j+1)
  have hex : ∃ n : ℕ, xfp < x0 * 10 ^ n := by
    obtain ⟨n, hn⟩ := pow_unbounded_of_one_lt (xfp / x0) (by norm_num : (1 : ℚ) < 10)
    exact ⟨n, by rw [mul_comm]; exact (div_lt_iff hx0).mp hn⟩
  have hn0 : xfp < x0 * 10 ^ Nat.find hex := Nat.find_spec hex
  have hn0pos : 0 < Nat.find hex := by
    rcases Nat.eq_zero_or_pos (Nat.find hex) with h0 | h0
    · rw [h0, pow_zero, mul_one] at hn0
      exact absurd hn0 (not_lt.mpr hfp0)
    · exact h0
  set j := Nat.find hex - 1 with hjdef
  have hj2 : xfp < x0 * 10 ^ (j + 1) := by
    rw [show j + 1 = Nat.find hex from by omega]
    exact hn0
  have hj1 : x0 * 10 ^ j ≤ xfp := by
    by_contra hc
    push_neg at hc
    exact Nat.find_min hex (by omega : j < Nat.find hex) hc
  -- chain of counting bounds
  have hwin := scanDecade_count_le xs.length xs xfp (10 * xfp) fp 0
  have hdrople : (xs.drop fp).countP (fun x => decide (xfp < x ∧ x ≤ 10 * xfp))
      ≤ xs.countP (fun x => decide (xfp < x ∧ x ≤ 10 * xfp)) := by
    conv_rhs => rw [← List.take_append_drop fp xs]
    rw [List.countP_append]
    omega
  have himp := countP_le_add_of_imp xs
    (fun x => decide (xfp < x ∧ x ≤ 10 * xfp))
    (fun x => decide (x0 * 10 ^ j ≤ x ∧ x < x0 * 10 ^ (j + 1)) && decide (xfp < x))
    (fun x => decide (x0 * 10 ^ (j + 1) ≤ x ∧ x < x0 * 10 ^ (j + 1 + 1)))
    (by
      intro a _ hw
      rw [decide_eq_true_eq] at hw
      by_cases hc : a < x0 * 10 ^ (j + 1)
      · left
        rw [Bool.and_eq_true, decide_eq_true_eq, decide_eq_true_eq]
        exact ⟨⟨le_trans hj1 (le_of_lt hw.1), hc⟩, hw.1⟩
      · right
        rw [decide_eq_true_eq]
        refine ⟨not_lt.mp hc, ?_⟩
        calc a ≤ 10 * xfp := hw.2
          _ < 10 * (x0 * 10 ^ (j + 1)) :=
              mul_lt_mul_of_pos_left hj2 (by norm_num)
          _ = x0 * 10 ^ (j + 1 + 1) := by ring)
  have hstrict := countP_lt_of_mem xs
    (fun x => decide (x0 * 10 ^ j ≤ x ∧ x < x0 * 10 ^ (j + 1)))
    (fun x => decide (x0 * 10 ^ j ≤ x ∧ x < x0 * 10 ^ (j + 1)) && decide (xfp < x))
    (by
      intro a _ hqa
      rw [Bool.and_eq_true] at hqa
      exact hqa.1)
    xfp (by rw [hxfpdef]; exact List.get_mem xs fp h)
    (decide_eq_true ⟨hj1, hj2⟩)
    (by simp)
  have hd1 := hdec j
  have hd2 := hdec (j + 1)
  omega

/-- Propagate the per-block bound along all blocks. -/
theorem blockCountsAux_lt (fuel : Nat) (xs : List ℚ) (K : Nat)
    (hx0 : 0 < xs.getD 0 0) (hsorted : xs.Sorted (· ≤ ·))
    (hdec : ∀ j : ℕ, xs.countP (fun x =>
        decide (xs.getD 0 0 * 10 ^ j ≤ x ∧ x < xs.getD 0 0 * 10 ^ (j + 1))) ≤ K) :
    ∀ fp, ∀ c ∈ blockCountsAux fuel xs fp, c < 2 * K := by
  induction fuel with
  | zero => intro fp c hc; simp [blockCountsAux] at hc
  | succ fuel ih =>
      intro fp c hc
      rw [blockCountsAux] at hc
      by_cases h : fp < xs.length
      · rw [dif_pos h] at hc
        by_cases hlast : xs.length ≤ (scanBlock xs fp h).1 + 1
        · rw [if_pos hlast] at hc
          rcases List.mem_singleton.mp hc with rfl
          exact scanBlock_count_lt xs K fp h hx0 hsorted hdec
        · rw [if_neg hlast] at hc
          rcases List.mem_cons.mp hc with rfl | hc2
          · exact scanBlock_count_lt xs K fp h hx0 hsorted hdec
          · exact ih _ c hc2
      · rw [dif_neg h] at hc
        simp at hc

theorem blockStartsAux_mem_bounds (fuel : Nat) (xs : List ℚ) :
    ∀ fp i, i ∈ blockStartsAux fuel xs fp → fp ≤ i ∧ i < xs.length := by
  induction fuel with
  | zero => intro fp i hi; simp [blockStartsAux] at hi
  | succ fuel ih =>
      intro fp i hi
      rw [blockStartsAux] at hi
      by_cases h : fp < xs.length
      · rw [dif_pos h] at hi
        have hs := scanBlock_bounds xs fp h
        by_cases hlast : xs.length ≤ (scanBlock xs fp h).1 + 1
        · rw [if_pos hlast] at hi
          rcases List.mem_singleton.mp hi with rfl
          exact ⟨Nat.le_refl i, h⟩
        · rw [if_neg hlast] at hi
          rcases List.mem_cons.mp hi with rfl | hi2
          · exact ⟨Nat.le_refl i, h⟩
          · have := ih _ i hi2
            exact ⟨by omega, this.2⟩
      · rw [dif_neg h] at hi; simp at hi

theorem trimRemv_getElem_start (fuel : Nat) (xs : List ℚ) (K : Nat) :
    ∀ fp i, fp < xs.length → xs.length - fp ≤ fuel →
      i ∈ blockStartsAux fuel xs fp →
      (trimRemv fuel xs K fp)[i - fp]? = some false := by
  induction fuel with
  | zero => intro fp i h hf _; omega
  | succ fuel ih =>
      intro fp i h hf hi
      have hs := scanBlock_bounds xs fp h
      rw [blockStartsAux] at hi
      rw [trimRemv]
      rw [dif_pos h] at hi ⊢
      by_cases hlast : xs.length ≤ (scanBlock xs fp h).1 + 1
      · rw [if_pos hlast] at hi ⊢
        rcases List.mem_singleton.mp hi with rfl
        rw [Nat.sub_self]
        exact blockFlags_getElem_zero _ _ _ (by omega)
      · rw [if_neg hlast] at hi ⊢
        rcases List.mem_cons.mp hi with rfl | hi2
        · rw [Nat.sub_self,
            List.getElem?_append_left (by rw [blockFlags_length]; omega)]
          exact blockFlags_getElem_zero _ _ _ (by omega)
        · have hb := blockStartsAux_mem_bounds fuel xs _ i hi2
          rw [List.getElem?_append_right (by rw [blockFlags_length]; omega),
            blockFlags_length,
            show i - fp - ((scanBlock xs fp h).1 - fp + 1)
              = i - ((scanBlock xs fp h).1 + 1) from by omega]
          exact ih _ i (by omega) (by omega) hi2

theorem keepByMarks_mem (pts : List (ℚ × ℚ)) :
    ∀ (remv : List Bool) (i : Nat), remv[i]? = some false → i < pts.length →
      pts.getD i (0, 0) ∈ keepByMarks pts remv := by
  induction pts with
  | nil => intro remv i _ h; simp at h
  | cons p ps ih =>
      intro remv i hflag hlt
      match remv with
      | [] => simp at hflag
      | b :: bs =>
        match i with
        | 0 =>
            have hb : b = false := by simpa using hflag
            subst hb
            simp [keepByMarks]
        | i + 1 =>
            have hflag2 : bs[i]? = some false := by simpa using hflag
            have hlt2 : i < ps.length := by simpa using hlt
            have hmem := ih bs i hflag2 hlt2
            have hgd : (p :: ps).getD (i + 1) (0, 0) = ps.getD i (0, 0) := rfl
            cases b
            · show (p :: ps).getD (i + 1) (0, 0) ∈ p :: keepByMarks ps bs
              rw [hgd]
              exact List.mem_cons_of_mem _ hmem
            · show (p :: ps).getD (i + 1) (0, 0) ∈ keepByMarks ps bs
              rw [hgd]
              exact hmem

/-! ## Claim theorems -/

/-- C7: `DrawRatio` given one absent (null) input returns "no curve"
(`none`); in this pure embedding it is a total function with no other
effect. -/
theorem DrawRatio_absent_none (gr : Option TGraph) :
    DrawRatio none gr = none ∧ DrawRatio gr none = none := by
  cases gr <;> exact ⟨rfl, rfl⟩

/-- C1 counterexample: the claim's sentinel assignment is the reverse of
the code's.  At the sample x = 1 the numerator curve evaluates to 0 and the
denominator curve to 2; the claim (`ratioSpecY`) demands y = -1 there, but
`DrawRatio` produces y = +1. -/
theorem DrawRatio_sentinels_counterexample :
    DrawRatio (some ⟨[((1 : ℚ), (0 : ℚ))], fun _ => 0⟩)
        (some ⟨[((1 : ℚ), (2 : ℚ))], fun _ => 2⟩) = some [((1 : ℚ), (1 : ℚ))]
    ∧ ratioSpecY 0 2 = -1
    ∧ ((1 : ℚ)) ≠ -1 := by
  refine ⟨?_, by norm_num [ratioSpecY], by norm_num⟩
  simp [DrawRatio]

/-- C1 amended: for every pair of present curves, `DrawRatio` samples the
numerator's x-values and at each x computes num(x)/denom(x) when both
evaluations are non-zero, `-1` when the numerator is non-zero and the
denominator evaluates to zero, and `+1` when the numerator evaluates to
zero — the both-zero case also yields `+1` (the numerator-nonzero test is
applied first). -/
theorem DrawRatio_sentinels_amended (g0 g1 : TGraph) :
    DrawRatio (some g0) (some g1)
      = some (g0.pts.map (fun p => (p.1, ratioCodeY (g0.Eval p.1) (g1.Eval p.1)))) := by
  simp only [DrawRatio]
  refine congrArg some (List.map_congr_left ?_)
  intro p _
  rcases eq_or_ne (g0.Eval p.1) 0 with h0 | h0 <;>
    rcases eq_or_ne (g1.Eval p.1) 0 with h1 | h1 <;>
      simp [ratioCodeY, h0, h1]

/-- C5 counterexample: a category absent from the current source still gets
a page when the reference source has the curve: `Draw` only returns early
when BOTH fetched graphs are null. -/
theorem Draw_skip_counterexample :
    DrawStep none (some ⟨[((1 : ℚ), (1 : ℚ))], fun _ => 1⟩) = true
    ∧ DrawStep none none = false := ⟨rfl, rfl⟩

/-- C5 amended: the per-category draw step returns before emitting a new
page exactly when the category's curve is absent from the current source
AND from the reference source (absent reference file included); the skip is
the value `false` of a total function — non-fatal, the category loop
continues. -/
theorem Draw_skip_iff_both_absent (gr_curr gr_ref0 : Option TGraph) :
    DrawStep gr_curr gr_ref0 = false ↔ gr_curr = none ∧ gr_ref0 = none := by
  cases gr_curr <;> cases gr_ref0 <;> simp [DrawStep]

/-- C2: for every curve (non-empty, x non-decreasing and positive, per the
spec's Curve data model) in which each decade — each factor-of-10 x-bin
`[x0*10^j, x0*10^(j+1))` of the tiling that starts at the curve's first
x-value `x0` — contains at most `K` points, `TrimGraph` with
`max_np_per_decade = K` returns the curve unchanged — all points kept, in
order — and consequently trimming is idempotent on such curves.  (Each
scan block then counts `ndec <= 2K - 1`: at most `K - 1` further points of
the decade of the block's start plus at most `K` of the next decade; so
either no decimation is triggered or `keep_rate = 1`, which drops
nothing.) -/
theorem TrimGraph_sparse_unchanged (pts : List (ℚ × ℚ)) (K : Nat)
    (hne : pts ≠ [])
    (hsorted : (pts.map Prod.fst).Sorted (· ≤ ·))
    (hx0 : 0 < (pts.map Prod.fst).getD 0 0)
    (hdec : ∀ j : ℕ, (pts.map Prod.fst).countP (fun x =>
        decide ((pts.map Prod.fst).getD 0 0 * 10 ^ j ≤ x
          ∧ x < (pts.map Prod.fst).getD 0 0 * 10 ^ (j + 1))) ≤ K) :
    TrimGraph pts K = pts ∧ TrimGraph (TrimGraph pts K) K = TrimGraph pts K := by
  have hlen : (pts.map Prod.fst).length = pts.length := List.length_map _ _
  have hpos : 0 < pts.length := List.length_pos.mpr hne
  have hfirst : TrimGraph pts K = pts := by
    rw [TrimGraph,
      trimRemv_replicate_of_lt pts.length (pts.map Prod.fst) K 0
        (by omega) (by omega)
        (blockCountsAux_lt pts.length (pts.map Prod.fst) K hx0 hsorted hdec 0)]
    rw [hlen, Nat.sub_zero]
    exact keepByMarks_replicate_false pts
  exact ⟨hfirst, by rw [hfirst, hfirst]⟩

section RatEval

/- `Batteries` marks `Rat.mul` irreducible, which blocks `decide`-style
evaluation of the concrete decade bound `10 * xmin`; the concrete witness
evaluations below need it unfolded. -/
attribute [local semireducible] Rat.mul

/-- C2 witness: the seven-point curve with x-values 1, 50, 60, 70, 150,
200, 300 and K = 3 — each factor-of-10 decade from x0 = 1 holds at most 3
points ({1}, {50, 60, 70}, {150, 200, 300}) — is returned unchanged, even
though the scan block starting at x = 60 counts ndec = 4 > K (keep_rate is
then 1 and drops nothing). -/
theorem TrimGraph_sparse_unchanged_witness :
    ([((1 : ℚ), (1 : ℚ)), (50, 2), (60, 3), (70, 4),
        (150, 5), (200, 6), (300, 7)] : List (ℚ × ℚ)) ≠ []
    ∧ TrimGraph [((1 : ℚ), (1 : ℚ)), (50, 2), (60, 3), (70, 4),
        (150, 5), (200, 6), (300, 7)] 3
      = [((1 : ℚ), (1 : ℚ)), (50, 2), (60, 3), (70, 4),
        (150, 5), (200, 6), (300, 7)] := by
  refine ⟨by decide, (TrimGraph_sparse_unchanged _ 3 (by decide)
    (by decide) (by decide) ?_).1⟩
  intro j
  rcases j with _ | _ | _ | j
  · decide
  · decide
  · decide
  · have h0 : ([((1 : ℚ), (1 : ℚ)), (50, 2), (60, 3), (70, 4),
        (150, 5), (200, 6), (300, 7)].map Prod.fst).countP (fun x =>
        decide (([((1 : ℚ), (1 : ℚ)), (50, 2), (60, 3), (70, 4),
            (150, 5), (200, 6), (300, 7)].map Prod.fst).getD 0 0
            * 10 ^ (j + 1 + 1 + 1) ≤ x
          ∧ x < ([((1 : ℚ), (1 : ℚ)), (50, 2), (60, 3), (70, 4),
            (150, 5), (200, 6), (300, 7)].map Prod.fst).getD 0 0
            * 10 ^ (j + 1 + 1 + 1 + 1))) = 0 := by
      rw [List.countP_eq_zero]
      intro a ha
      have hle : a ≤ (300 : ℚ) := by
        have hall : ∀ b ∈ ([((1 : ℚ), (1 : ℚ)), (50, 2), (60, 3), (70, 4),
            (150, 5), (200, 6), (300, 7)].map Prod.fst), b ≤ (300 : ℚ) := by
          decide
        exact hall a ha
      simp only [decide_eq_true_eq]
      rintro ⟨h1, -⟩
      have hx0v : (([((1 : ℚ), (1 : ℚ)), (50, 2), (60, 3), (70, 4),
          (150, 5), (200, 6), (300, 7)].map Prod.fst).getD 0 0) = 1 := by decide
      rw [hx0v, one_mul] at h1
      have hbig : (1000 : ℚ) ≤ 10 ^ (j + 1 + 1 + 1) := by
        calc (1000 : ℚ) = 10 ^ 3 := by norm_num
          _ ≤ 10 ^ (j + 1 + 1 + 1) := by
              apply pow_le_pow_right (by norm_num : (1 : ℚ) ≤ 10)
              omega
      linarith
    rw [h0]
    exact Nat.zero_le 3

/-- C3 counterexample: with the decades of the spec's glossary (factor-of-10
x-bins from the first x-value), the first point of a decade CAN be dropped.
On the curve with x-values 1, 2, 3, 11 and K = 1, the point (11, 4) — the
first (and only) point beyond `10 * x_0 = 10`, i.e. the point that begins
the second factor-of-10 decade — is removed: the scan block starting at
x = 1 extends THROUGH the first point exceeding 10, and the stride
decimation covers that overflow point; the stride counter only resets at
the following index. -/
theorem TrimGraph_decade_first_point_counterexample :
    TrimGraph [((1 : ℚ), (1 : ℚ)), (2, 2), (3, 3), (11, 4)] 1
      = [((1 : ℚ), (1 : ℚ)), (3, 3)]
    ∧ ((11 : ℚ), (4 : ℚ)) ∉ TrimGraph [((1 : ℚ), (1 : ℚ)), (2, 2), (3, 3), (11, 4)] 1
    ∧ (10 : ℚ) * 1 < 11 := by
  refine ⟨by decide, by decide, by norm_num⟩

/-- C3 amended: the first point of every scan block of the trimming loop is
always retained, for every curve and every K > 0: each block begins at the
first index not covered by the previous block (where the stride counter
resets), so the point at a block start is never dropped.  (A block extends
through the first point whose x exceeds 10x the block's starting x; that
overflow point belongs to the previous block's stride pattern, so the
first point of a factor-of-10 decade, as opposed to a block, can be
dropped — see the counterexample.) -/
theorem TrimGraph_block_first_point_kept (pts : List (ℚ × ℚ)) (K : Nat)
    (_hK : 0 < K) (i : Nat) (hi : i ∈ trimBlockStarts pts) :
    i < pts.length ∧ pts.getD i (0, 0) ∈ TrimGraph pts K := by
  have hlen : (pts.map Prod.fst).length = pts.length := List.length_map _ _
  have hb := blockStartsAux_mem_bounds pts.length (pts.map Prod.fst) 0 i hi
  have hilen : i < pts.length := by omega
  have hflag := trimRemv_getElem_start pts.length (pts.map Prod.fst) K 0 i
    (by omega) (by omega) hi
  rw [Nat.sub_zero] at hflag
  exact ⟨hilen, keepByMarks_mem pts _ i hflag hilen⟩

/-- C3 witness: on the five-point curve with x-values 1, 2, 3, 11, 12 and
K = 1, index 4 starts the second scan block and its point (12, 5) is
retained even though the block starting at x = 1 is decimated. -/
theorem TrimGraph_block_first_point_kept_witness :
    (4 : Nat) ∈ trimBlockStarts [((1 : ℚ), (1 : ℚ)), (2, 2), (3, 3), (11, 4), (12, 5)]
    ∧ ((12 : ℚ), (5 : ℚ)) ∈
        TrimGraph [((1 : ℚ), (1 : ℚ)), (2, 2), (3, 3), (11, 4), (12, 5)] 1 :=
  ⟨by decide,
    (TrimGraph_block_first_point_kept
      [((1 : ℚ), (1 : ℚ)), (2, 2), (3, 3), (11, 4), (12, 5)] 1
      (by decide) 4 (by decide)).2⟩

end RatEval

/-- C9: the `MultiGraph` accessors are bounds-checked: for a state whose
parallel vectors have equal length (the class invariant every reachable
state satisfies), `GetGraph i` is the stored graph (`mgraph[i]?`, i.e.
`some` of the element) when `i < NGraphs` and `none` otherwise, and
`GetLegendEntry i` is the stored entry when in range and `""` otherwise;
both are total functions — no failure on out-of-range `i`. -/
theorem MultiGraph_accessors_bounds_checked (st : MultiGraph) (i : Nat)
    (hw : st.legend_entries.length = st.mgraph.length) :
    st.GetGraph i = st.mgraph[i]?
    ∧ st.GetLegendEntry i = (st.legend_entries[i]?).getD ""
    ∧ (st.NGraphs ≤ i → st.GetGraph i = none ∧ st.GetLegendEntry i = "") := by
  have hN : st.NGraphs = st.mgraph.length := rfl
  refine ⟨?_, ?_, ?_⟩
  · by_cases h : i < st.NGraphs
    · simp [MultiGraph.GetGraph, h]
    · rw [MultiGraph.GetGraph, if_neg h,
        List.getElem?_eq_none (by rw [← hN]; exact Nat.le_of_not_lt h)]
  · by_cases h : i < st.NGraphs
    · simp [MultiGraph.GetLegendEntry, h, List.getD_eq_getElem?_getD]
    · rw [MultiGraph.GetLegendEntry, if_neg h,
        List.getElem?_eq_none (by rw [hw, ← hN]; exact Nat.le_of_not_lt h)]
      rfl
  · intro hle
    have h : ¬ i < st.NGraphs := Nat.not_lt.mpr hle
    constructor
    · rw [MultiGraph.GetGraph, if_neg h]
    · rw [MultiGraph.GetLegendEntry, if_neg h]

/-- C9 witness: the accessors evaluated on a concrete one-entry state, in
range and out of range. -/
theorem MultiGraph_accessors_bounds_checked_witness :
    (MultiGraph.mk [⟨7, 1, 1, 3, 1, 2, 1⟩] ["lbl"]).GetGraph 0
        = some ⟨7, 1, 1, 3, 1, 2, 1⟩
    ∧ (MultiGraph.mk [⟨7, 1, 1, 3, 1, 2, 1⟩] ["lbl"]).GetGraph 5 = none
    ∧ (MultiGraph.mk [⟨7, 1, 1, 3, 1, 2, 1⟩] ["lbl"]).GetLegendEntry 5 = "" := by
  have h := MultiGraph_accessors_bounds_checked
    (MultiGraph.mk [⟨7, 1, 1, 3, 1, 2, 1⟩] ["lbl"]) 5 (by decide)
  have h0 := MultiGraph_accessors_bounds_checked
    (MultiGraph.mk [⟨7, 1, 1, 3, 1, 2, 1⟩] ["lbl"]) 0 (by decide)
  exact ⟨h0.1, (h.2.2 (by decide)).1, (h.2.2 (by decide)).2⟩

/-- C10: `AddGraph` on any well-formed state appends exactly one entry:
`NGraphs` grows by one, every previously present index `j` keeps the same
graph handle and the same legend entry, and the newly stored entry at the
old count is the added graph restyled by `FormatGraph` — the formatting
touches only the new index. -/
theorem MultiGraph_AddGraph_frame (st : MultiGraph) (lbl : String)
    (g : TGraphAsymmErrors) (j : Nat)
    (hw : st.legend_entries.length = st.mgraph.length)
    (hj : j < st.NGraphs) :
    (st.AddGraph lbl g).NGraphs = st.NGraphs + 1
    ∧ (st.AddGraph lbl g).GetGraph j = st.GetGraph j
    ∧ (st.AddGraph lbl g).GetLegendEntry j = st.GetLegendEntry j
    ∧ (st.AddGraph lbl g).GetGraph st.NGraphs
        = some (MultiGraph.applyFormat st.NGraphs g) := by
  have hN : st.NGraphs = st.mgraph.length := rfl
  have hmg := MultiGraph.AddGraph_mgraph st lbl g
  have hle := MultiGraph.AddGraph_legend st lbl g
  have hlen : (st.AddGraph lbl g).NGraphs = st.NGraphs + 1 := by
    rw [MultiGraph.NGraphs, hmg]; simp [MultiGraph.NGraphs]
  refine ⟨hlen, ?_, ?_, ?_⟩
  · rw [MultiGraph.GetGraph, MultiGraph.GetGraph, if_pos hj,
      if_pos (by omega : j < (st.AddGraph lbl g).NGraphs), hmg,
      List.getElem?_append_left (by rw [← hN]; exact hj)]
  · rw [MultiGraph.GetLegendEntry, MultiGraph.GetLegendEntry, if_pos hj,
      if_pos (by omega : j < (st.AddGraph lbl g).NGraphs), hle,
      List.getD_eq_getElem?_getD, List.getD_eq_getElem?_getD,
      List.getElem?_append_left (by rw [hw, ← hN]; exact hj)]
  · rw [MultiGraph.GetGraph, if_pos (by omega : st.NGraphs < (st.AddGraph lbl g).NGraphs),
      hmg, hN, List.getElem?_concat_length]

/-- C10 witness: adding to a concrete one-entry aggregator preserves entry
0 and appends the restyled new graph at index 1. -/
theorem MultiGraph_AddGraph_frame_witness :
    ((MultiGraph.mk [⟨7, 1, 1, 3, 1, 2, 1⟩] ["a"]).AddGraph "b"
        ⟨9, 0, 0, 0, 0, 0, 0⟩).NGraphs = 2
    ∧ ((MultiGraph.mk [⟨7, 1, 1, 3, 1, 2, 1⟩] ["a"]).AddGraph "b"
        ⟨9, 0, 0, 0, 0, 0, 0⟩).GetGraph 0
        = (MultiGraph.mk [⟨7, 1, 1, 3, 1, 2, 1⟩] ["a"]).GetGraph 0
    ∧ ((MultiGraph.mk [⟨7, 1, 1, 3, 1, 2, 1⟩] ["a"]).AddGraph "b"
        ⟨9, 0, 0, 0, 0, 0, 0⟩).GetLegendEntry 0
        = (MultiGraph.mk [⟨7, 1, 1, 3, 1, 2, 1⟩] ["a"]).GetLegendEntry 0 := by
  have h := MultiGraph_AddGraph_frame (MultiGraph.mk [⟨7, 1, 1, 3, 1, 2, 1⟩] ["a"])
    "b" ⟨9, 0, 0, 0, 0, 0, 0⟩ 0 (by decide) (by decide)
  exact ⟨h.1, h.2.1, h.2.2.1⟩

/-- C4: after any sequence of `AddGraph` calls on a fresh aggregator, the
style stored with the entry of 0-based insertion index `i` is a pure
function of `i` alone: marker shape `markers[i / 10]` (from the fixed
14-marker sequence), marker and line color `colors[i mod 10]` (from the
fixed 10-color palette), marker size 1, line width 2, solid (1) line
style, while the graph handle is the one added at position `i`.  Since the
style is this fixed function of `i`, re-adding the same curves in the same
order reproduces the identical style sequence. -/
theorem MultiGraph_style_pure_of_index
    (entries : List (String × TGraphAsymmErrors)) (i : Nat)
    (h : i < entries.length) (h140 : i < 140) :
    ((MultiGraph.addAll entries MultiGraph.emptyMG).GetGraph i).map
        TGraphAsymmErrors.gid = some (entries.get ⟨i, h⟩).2.gid
    ∧ ((MultiGraph.addAll entries MultiGraph.emptyMG).GetGraph i).map
        TGraphAsymmErrors.markerStyle
        = some (MultiGraph.markers.getD (i / MultiGraph.n_colors) 0)
    ∧ ((MultiGraph.addAll entries MultiGraph.emptyMG).GetGraph i).map
        TGraphAsymmErrors.markerColor
        = some (MultiGraph.colors.getD (i % MultiGraph.n_colors) 0)
    ∧ ((MultiGraph.addAll entries MultiGraph.emptyMG).GetGraph i).map
        TGraphAsymmErrors.lineColor
        = some (MultiGraph.colors.getD (i % MultiGraph.n_colors) 0)
    ∧ ((MultiGraph.addAll entries MultiGraph.emptyMG).GetGraph i).map
        TGraphAsymmErrors.markerSize = some 1
    ∧ ((MultiGraph.addAll entries MultiGraph.emptyMG).GetGraph i).map
        TGraphAsymmErrors.lineWidth = some 2
    ∧ ((MultiGraph.addAll entries MultiGraph.emptyMG).GetGraph i).map
        TGraphAsymmErrors.lineStyle = some 1
    ∧ i / MultiGraph.n_colors < MultiGraph.markers.length := by
  have hget := MultiGraph.addAll_getElem_new entries MultiGraph.emptyMG i h
  simp only [show MultiGraph.emptyMG.mgraph.length = 0 from rfl,
    Nat.zero_add] at hget
  have hlen : (MultiGraph.addAll entries MultiGraph.emptyMG).NGraphs
      = entries.length := by
    rw [MultiGraph.NGraphs, MultiGraph.addAll_mgraph_length]
    simp [MultiGraph.emptyMG]
  have hGG : (MultiGraph.addAll entries MultiGraph.emptyMG).GetGraph i
      = some (MultiGraph.applyFormat i (entries.get ⟨i, h⟩).2) := by
    rw [MultiGraph.GetGraph, if_pos (by omega), hget]
  refine ⟨?_, ?_, ?_, ?_, ?_, ?_, ?_, ?_⟩
  all_goals first
    | (rw [hGG]; rfl)
    | (show i / MultiGraph.n_colors < MultiGraph.markers.length
       simp only [MultiGraph.n_colors, MultiGraph.markers]
       simp only [List.length_cons, List.length_nil]
       omega)

/-- C4 witness: with eleven concrete entries, entry 0 gets
color `colors[0] = 1` and marker `markers[0] = 3`, entry 9 gets color
`colors[9] = 40` and marker `markers[0] = 3`, and entry 10 gets color
`colors[0] = 1` and marker `markers[1] = 4`. -/
theorem MultiGraph_style_pure_of_index_witness :
    ((MultiGraph.addAll
        (List.map (fun k => ("c", TGraphAsymmErrors.mk k 0 0 0 0 0 0))
          (List.range 11)) MultiGraph.emptyMG).GetGraph 0).map
        TGraphAsymmErrors.markerColor = some 1
    ∧ ((MultiGraph.addAll
        (List.map (fun k => ("c", TGraphAsymmErrors.mk k 0 0 0 0 0 0))
          (List.range 11)) MultiGraph.emptyMG).GetGraph 0).map
        TGraphAsymmErrors.markerStyle = some 3
    ∧ ((MultiGraph.addAll
        (List.map (fun k => ("c", TGraphAsymmErrors.mk k 0 0 0 0 0 0))
          (List.range 11)) MultiGraph.emptyMG).GetGraph 9).map
        TGraphAsymmErrors.markerColor = some 40
    ∧ ((MultiGraph.addAll
        (List.map (fun k => ("c", TGraphAsymmErrors.mk k 0 0 0 0 0 0))
          (List.range 11)) MultiGraph.emptyMG).GetGraph 9).map
        TGraphAsymmErrors.markerStyle = some 3
    ∧ ((MultiGraph.addAll
        (List.map (fun k => ("c", TGraphAsymmErrors.mk k 0 0 0 0 0 0))
          (List.range 11)) MultiGraph.emptyMG).GetGraph 10).map
        TGraphAsymmErrors.markerColor = some 1
    ∧ ((MultiGraph.addAll
        (List.map (fun k => ("c", TGraphAsymmErrors.mk k 0 0 0 0 0 0))
          (List.range 11)) MultiGraph.emptyMG).GetGraph 10).map
        TGraphAsymmErrors.markerStyle = some 4 := by
  have h0 := MultiGraph_style_pure_of_index
    (List.map (fun k => ("c", TGraphAsymmErrors.mk k 0 0 0 0 0 0))
      (List.range 11)) 0 (by simp) (by omega)
  have h9 := MultiGraph_style_pure_of_index
    (List.map (fun k => ("c", TGraphAsymmErrors.mk k 0 0 0 0 0 0))
      (List.range 11)) 9 (by simp) (by omega)
  have h10 := MultiGraph_style_pure_of_index
    (List.map (fun k => ("c", TGraphAsymmErrors.mk k 0 0 0 0 0 0))
      (List.range 11)) 10 (by simp) (by omega)
  exact ⟨h0.2.2.1, h0.2.1, h9.2.2.1, h9.2.1, h10.2.2.1, h10.2.1⟩

/-! ### Helper lemmas about substring search -/

theorem matchesHere_append (p : List Char) :
    ∀ (s q : List Char), matchesHere s (p ++ q) = true → matchesHere s p = true := by
  induction p with
  | nil => intro s q _; cases s <;> rfl
  | cons b p ih =>
      intro s q h
      cases s with
      | nil => simp [matchesHere] at h
      | cons a s' =>
          simp only [List.cons_append, matchesHere, Bool.and_eq_true] at h ⊢
          exact ⟨h.1, ih s' q h.2⟩

theorem listFindSub_append (p q : List Char) :
    ∀ s : List Char, listFindSub s (p ++ q) = true → listFindSub s p = true := by
  intro s
  induction s with
  | nil =>
      intro h
      cases p with
      | nil => rfl
      | cons b p' => simp [listFindSub, matchesHere] at h
  | cons a s' ih =>
      intro h
      simp only [listFindSub, Bool.or_eq_true] at h ⊢
      rcases h with h | h
      · exact Or.inl (matchesHere_append p _ q h)
      · exact Or.inr (ih h)

/-- If `pat`'s characters are `pre`'s characters followed by `rest`, any
string containing `pat` contains `pre`. -/
theorem strFind_mono (s pat pre : String) (rest : List Char)
    (hsplit : pat.toList = pre.toList ++ rest) :
    strFind s pat = true → strFind s pre = true := by
  intro h
  rw [strFind, hsplit] at h
  exact listFindSub_append pre.toList rest s.toList h

/-- C8 counterexample: the directory name "nu_enu_mu_bar" contains
"nu_mu_bar", yet it does not resolve to the anti-muon-neutrino probe: the
earlier "nu_e" alternative also matches and wins, giving the
electron-neutrino probe. -/
theorem DirNameToProbe_counterexample :
    strFind "nu_enu_mu_bar" "nu_mu_bar" = true
    ∧ (DirNameToProbe "nu_enu_mu_bar").1 = kPdgNuE
    ∧ kPdgNuE ≠ kPdgAntiNuMu := by
  exact ⟨by decide, by decide, by decide⟩

/-- C8 amended: within each flavor pair the longer `..._bar` pattern is
checked before the shorter one, so a directory name containing "nu_mu_bar"
NEVER resolves to the muon-neutrino probe, and resolves to the
anti-muon-neutrino probe provided no earlier alternative ("nu_e", which
subsumes "nu_e_bar") also occurs in the name; likewise "nu_tau_bar" never
yields the tau-neutrino probe and yields the anti-tau-neutrino probe when
neither "nu_e" nor "nu_mu" occurs; a name containing "nu_e_bar" — the
first alternative checked — always resolves to the anti-electron-neutrino
probe. -/
theorem DirNameToProbe_bar_checked_first (d : String) :
    (strFind d "nu_e_bar" = true → (DirNameToProbe d).1 = kPdgAntiNuE)
    ∧ (strFind d "nu_mu_bar" = true → (DirNameToProbe d).1 ≠ kPdgNuMu
        ∧ (strFind d "nu_e" = false → (DirNameToProbe d).1 = kPdgAntiNuMu))
    ∧ (strFind d "nu_tau_bar" = true → (DirNameToProbe d).1 ≠ kPdgNuTau
        ∧ (strFind d "nu_e" = false → strFind d "nu_mu" = false →
            (DirNameToProbe d).1 = kPdgAntiNuTau)) := by
  have hEbarE : strFind d "nu_e_bar" = true → strFind d "nu_e" = true :=
    strFind_mono d _ _ ['_', 'b', 'a', 'r'] (by decide)
  have hMubarMu : strFind d "nu_mu_bar" = true → strFind d "nu_mu" = true :=
    strFind_mono d _ _ ['_', 'b', 'a', 'r'] (by decide)
  refine ⟨?_, ?_, ?_⟩
  · intro h
    rw [DirNameToProbe, if_pos h]
  · intro h
    constructor
    · rw [DirNameToProbe]
      by_cases h1 : strFind d "nu_e_bar" = true
      · rw [if_pos h1]; decide
      · rw [if_neg h1]
        by_cases h2 : strFind d "nu_e" = true
        · rw [if_pos h2]; decide
        · rw [if_neg h2, if_pos h]; decide
    · intro he
      have h1 : ¬ strFind d "nu_e_bar" = true := fun hc => by
        rw [hEbarE hc] at he; exact absurd he (by decide)
      rw [DirNameToProbe, if_neg h1, if_neg (by simp [he]), if_pos h]
  · intro h
    constructor
    · rw [DirNameToProbe]
      by_cases h1 : strFind d "nu_e_bar" = true
      · rw [if_pos h1]; decide
      · rw [if_neg h1]
        by_cases h2 : strFind d "nu_e" = true
        · rw [if_pos h2]; decide
        · rw [if_neg h2]
          by_cases h3 : strFind d "nu_mu_bar" = true
          · rw [if_pos h3]; decide
          · rw [if_neg h3]
            by_cases h4 : strFind d "nu_mu" = true
            · rw [if_pos h4]; decide
            · rw [if_neg h4, if_pos h]; decide
    · intro he hmu
      have h1 : ¬ strFind d "nu_e_bar" = true := fun hc => by
        rw [hEbarE hc] at he; exact absurd he (by decide)
      have h3 : ¬ strFind d "nu_mu_bar" = true := fun hc => by
        rw [hMubarMu hc] at hmu; exact absurd hmu (by decide)
      rw [DirNameToProbe, if_neg h1, if_neg (by simp [he]),
        if_neg h3, if_neg (by simp [hmu]), if_pos h]

/-- C8 witness: the realistic directory name "nu_mu_bar_H1" contains
"nu_mu_bar" and no electron-flavor pattern, and resolves to the
anti-muon-neutrino probe. -/
theorem DirNameToProbe_bar_checked_first_witness :
    (DirNameToProbe "nu_mu_bar_H1").1 = kPdgAntiNuMu :=
  ((DirNameToProbe_bar_checked_first "nu_mu_bar_H1").2.1 (by decide)).2 (by decide)

/-- C6 counterexample: the argument `-f a,b,c` (more than one comma) is
not rejected via `exit(1)`: it trips `assert(inpv.size()==2)`, which
aborts the process — a different (non-`exit(1)`) failure path. -/
theorem GetCommandLineArgs_multicomma_counterexample :
    GetCommandLineArgs (fun _ => true) (some "a,b,c") none none
      = CLResult.assertFail
    ∧ CLResult.assertFail ≠ CLResult.exitOne := ⟨by decide, by decide⟩

/-- C6 amended: `-f a.dat,Label` yields source "a.dat" and label "Label";
`-f a.dat` (no comma) yields source "a.dat" and label "current"; a missing
`-f` option or an inaccessible `-f` source exits via `PrintSyntax();
exit(1)`; an argument with more than one comma fails the
`assert(inpv.size()==2)` assertion (process aborts — nonzero, but not via
`exit(1)`). -/
theorem GetCommandLineArgs_amended (access : String → Bool)
    (h1 : access "a.dat" = true) (h2 : access "b.dat" = false) :
    GetCommandLineArgs access (some "a.dat,Label") none none
      = CLResult.args "a.dat" "Label" false "" "" "xsec.ps"
    ∧ GetCommandLineArgs access (some "a.dat") none none
      = CLResult.args "a.dat" "current" false "" "" "xsec.ps"
    ∧ GetCommandLineArgs access (some "a,b,c") none none = CLResult.assertFail
    ∧ GetCommandLineArgs access none none none = CLResult.exitOne
    ∧ GetCommandLineArgs access (some "b.dat") none none = CLResult.exitOne := by
  have hs1 : splitFileLabel "a.dat,Label" "current" = some ("a.dat", "Label") := by
    decide
  have hs2 : splitFileLabel "a.dat" "current" = some ("a.dat", "current") := by
    decide
  have hs3 : splitFileLabel "a,b,c" "current" = none := by decide
  have hs4 : splitFileLabel "b.dat" "current" = some ("b.dat", "current") := by
    decide
  have hc1 : CheckRootFilename access "a.dat" = true := by
    rw [CheckRootFilename, if_neg (by decide)]; exact h1
  have hc2 : CheckRootFilename access "b.dat" = false := by
    rw [CheckRootFilename, if_neg (by decide)]; exact h2
  refine ⟨?_, ?_, ?_, rfl, ?_⟩
  · show (match splitFileLabel "a.dat,Label" "current" with
      | none => CLResult.assertFail
      | some (fname, flbl) =>
        if CheckRootFilename access fname then
          CLResult.args fname flbl false "" "" "xsec.ps"
        else CLResult.exitOne) = _
    rw [hs1]
    simp only [hc1, if_true]
  · show (match splitFileLabel "a.dat" "current" with
      | none => CLResult.assertFail
      | some (fname, flbl) =>
        if CheckRootFilename access fname then
          CLResult.args fname flbl false "" "" "xsec.ps"
        else CLResult.exitOne) = _
    rw [hs2]
    simp only [hc1, if_true]
  · show (match splitFileLabel "a,b,c" "current" with
      | none => CLResult.assertFail
      | some (fname, flbl) =>
        if CheckRootFilename access fname then
          CLResult.args fname flbl false "" "" "xsec.ps"
        else CLResult.exitOne) = _
    rw [hs3]
  · show (match splitFileLabel "b.dat" "current" with
      | none => CLResult.assertFail
      | some (fname, flbl) =>
        if CheckRootFilename access fname then
          CLResult.args fname flbl false "" "" "xsec.ps"
        else CLResult.exitOne) = _
    rw [hs4]
    simp only [hc2]
    rfl

/-- C6 witness: the amended behavior evaluated with the concrete
accessibility predicate making "a.dat" accessible and "b.dat" not. -/
theorem GetCommandLineArgs_amended_witness :
    GetCommandLineArgs (fun s => s == "a.dat") (some "a.dat,Label") none none
      = CLResult.args "a.dat" "Label" false "" "" "xsec.ps"
    ∧ GetCommandLineArgs (fun s => s == "a.dat") (some "a,b,c") none none
      = CLResult.assertFail
    ∧ GetCommandLineArgs (fun s => s == "a.dat") (some "b.dat") none none
      = CLResult.exitOne := by
  have h := GetCommandLineArgs_amended (fun s => s == "a.dat")
    (by decide) (by decide)
  exact ⟨h.1, h.2.2.1, h.2.2.2.2⟩

end GenieComp
